import Mathlib

/-!
Verification of the blagbl blocklist-resolution engine.

The definitions below are a shallow embedding of the Python sources
`src/blagbl/main.py`, `src/blagbl/__init__.py` and `src/blagbl/tools/main.py`:

* `pySplit` models Python's `str.split()` (split on whitespace runs, dropping
  empty tokens); `csvRow` models one `csv.reader` row for a quote-free record
  (split on commas).
* `parseMapRows`, `resolveCodes`, `parseEntryRows`, `parse_blag_contents`
  embed the module-level `parse_blag_contents` of `main.py`; Python's IndexError
  on `row[1]` and `row.pop(0)` is `malformedRowError`, the KeyError on
  `blag_map[x]` is `unresolvedCodeError`.  The `BlagBL_`-named twins embed the
  method `BlagBL.parse_blag_contents` of `__init__.py` in the same way (its
  `defaultdict(list)` container is written to with plain assignment, exactly
  like the plain dict of the other variant).
* `fetch_blag_files` embeds the zip extraction (`items[1]`, `items[2]`, open by
  name, strict UTF-8 decode); `utf8Decode` is a strict UTF-8 decoder over a
  byte list (bytes as `Nat`), rejecting truncated sequences, stray or missing
  continuation bytes, overlong forms, surrogates and values above U+10FFFF,
  matching Python's `bytes.decode("utf-8")` acceptance.
* `summarizeLoop` embeds the loop of `ipaddress.summarize_address_range`
  (greedy largest aligned block at the lower bound), `pcapFilterRange` the body
  of `output_pcap_filter` including its `left <= 2**33` family test, and the
  string renderers produce the `a.b.c.d/len` and RFC 5952 IPv6 forms.
* `lookup_address` embeds the `if ip in ips: ips[ip]` query of `main.py`;
  `lookup_asn` is modelled from the spec (see its doc comment).

Dictionaries are modelled as association lists where an insert conses the new
binding at the front and `List.lookup` finds the most recent one, which gives
Python-dict lookup semantics (last write wins).
-/

namespace Blagbl

/-! ## Text splitting: Python `str.split()` and `csv.reader` rows -/

/-- One pass of Python `str.split()`: split on whitespace runs, no empty
tokens. `acc` holds the current token's characters in reverse. -/
def pySplitAux : List Char → List Char → List String
  | [], acc => if acc.isEmpty then [] else [String.mk acc.reverse]
  | c :: cs, acc =>
    if c.isWhitespace then
      if acc.isEmpty then pySplitAux cs [] else String.mk acc.reverse :: pySplitAux cs []
    else pySplitAux cs (c :: acc)

/-- Python `s.split()` with no separator argument. -/
def pySplit (s : String) : List String := pySplitAux s.data []

/-- Split a record's characters on commas; always returns at least one field. -/
def csvRowAux : List Char → List String
  | [] => [""]
  | c :: rest =>
    let r := csvRowAux rest
    if c = ',' then "" :: r
    else String.mk (c :: (r.headD "").data) :: r.tail

/-- One `csv.reader` row for a quote-free record. -/
def csvRow (s : String) : List String := csvRowAux s.data

/-! ## Errors (the spec's taxonomy for the Python exceptions) -/

/-- Parse-time failures: `archiveFormatError` for a missing archive member or a
member that is not UTF-8 (IndexError / UnicodeDecodeError), `malformedRowError`
for a row with too few fields (IndexError), `unresolvedCodeError` for an entry
code missing from the mapping table (KeyError). -/
inductive BlagError where
  | archiveFormatError : BlagError
  | malformedRowError : BlagError
  | unresolvedCodeError : String → BlagError
  deriving DecidableEq

deriving instance DecidableEq for Except

/-! ## Mapping parser and entry parser (src/blagbl/main.py lines 279-292) -/

/-- The mapping loop `for row in map_csv: blag_map[row[1]] = row[0]`. -/
def parseMapRows (blag_map : List (String × String)) :
    List (List String) → Except BlagError (List (String × String))
  | [] => .ok blag_map
  | row :: rest =>
    match row[1]?, row[0]? with
    | some code, some payload => parseMapRows ((code, payload) :: blag_map) rest
    | _, _ => .error .malformedRowError

/-- The comprehension `[blag_map[x] for x in row]`: left to right, the first
missing code raises. -/
def resolveCodes (blag_map : List (String × String)) :
    List String → Except BlagError (List String)
  | [] => .ok []
  | code :: rest =>
    match blag_map.lookup code with
    | none => .error (.unresolvedCodeError code)
    | some v => (resolveCodes blag_map rest).map (fun vs => v :: vs)

/-- The entry loop `ip = row.pop(0); ips[ip] = [blag_map[x] for x in row]`. -/
def parseEntryRows (blag_map : List (String × String))
    (ips : List (String × List String)) :
    List (List String) → Except BlagError (List (String × List String))
  | [] => .ok ips
  | row :: rest =>
    match row with
    | [] => .error .malformedRowError
    | ip :: codes =>
      match resolveCodes blag_map codes with
      | .error e => .error e
      | .ok vals => parseEntryRows blag_map ((ip, vals) :: ips) rest

/-- `csv.reader(map_list.split())` fed to the mapping loop. -/
def parseMapping (map_list : String) : Except BlagError (List (String × String)) :=
  parseMapRows [] ((pySplit map_list).map csvRow)

/-- `csv.reader(blag_list.split())` fed to the entry loop. -/
def parseEntries (blag_list : String) (blag_map : List (String × String)) :
    Except BlagError (List (String × List String)) :=
  parseEntryRows blag_map [] ((pySplit blag_list).map csvRow)

/-- `parse_blag_contents(blag_list, map_list)` of src/blagbl/main.py. -/
def parse_blag_contents (blag_list map_list : String) :
    Except BlagError (List (String × List String)) :=
  match parseMapping map_list with
  | .error e => .error e
  | .ok blag_map => parseEntries blag_list blag_map

/-! ## The near-duplicate method `BlagBL.parse_blag_contents`
(src/blagbl/__init__.py lines 116-133).  Its `ips` container is
`defaultdict(list)` instead of `{}`, but every record is written with a plain
assignment `ips[ip] = [...]`, so construction performs the same inserts. -/

/-- The mapping loop of `BlagBL.parse_blag_contents`. -/
def BlagBL_parseMapRows (blag_map : List (String × String)) :
    List (List String) → Except BlagError (List (String × String))
  | [] => .ok blag_map
  | row :: rest =>
    match row[1]?, row[0]? with
    | some code, some payload => BlagBL_parseMapRows ((code, payload) :: blag_map) rest
    | _, _ => .error .malformedRowError

/-- The comprehension `[blag_map[x] for x in row]` of the method variant. -/
def BlagBL_resolveCodes (blag_map : List (String × String)) :
    List String → Except BlagError (List String)
  | [] => .ok []
  | code :: rest =>
    match blag_map.lookup code with
    | none => .error (.unresolvedCodeError code)
    | some v => (BlagBL_resolveCodes blag_map rest).map (fun vs => v :: vs)

/-- The entry loop of the method variant: `ips = defaultdict(list);
ip = row.pop(0); ips[ip] = [blag_map[x] for x in row]` — a fresh list is
assigned per record, never appended. -/
def BlagBL_parseEntryRows (blag_map : List (String × String))
    (ips : List (String × List String)) :
    List (List String) → Except BlagError (List (String × List String))
  | [] => .ok ips
  | row :: rest =>
    match row with
    | [] => .error .malformedRowError
    | ip :: codes =>
      match BlagBL_resolveCodes blag_map codes with
      | .error e => .error e
      | .ok vals => BlagBL_parseEntryRows blag_map ((ip, vals) :: ips) rest

/-- `BlagBL.parse_blag_contents` of src/blagbl/__init__.py. -/
def BlagBL_parse_blag_contents (blag_list map_list : String) :
    Except BlagError (List (String × List String)) :=
  match BlagBL_parseMapRows [] ((pySplit map_list).map csvRow) with
  | .error e => .error e
  | .ok blag_map => BlagBL_parseEntryRows blag_map [] ((pySplit blag_list).map csvRow)

/-! ## Resolution-index queries -/

/-- The address query of src/blagbl/main.py lines 310-312:
`if ip in ips: ips[ip]`; `none` models the silent not-found branch. -/
def lookup_address (ips : List (String × List String)) (ip : String) :
    Option (List String) :=
  ips.lookup ip

/-- The `bl.ips[ip]` access of src/blagbl/tools/main.py line 167: a
`defaultdict(list)` read that yields `[]` for a missing address. -/
def defaultdict_getitem (ips : List (String × List String)) (ip : String) :
    List String :=
  (ips.lookup ip).getD []

/-- A resolved record as the spec's ASNDescriptor: ASN, owner, country and an
inclusive numeric range. -/
structure ASNRecord where
  asn : String
  owner : String
  country : String
  ip_range : Nat × Nat

/-- Modelled from the spec: `lookup_asn` is a method of the resolution-index
object `i2a` used by `process_fsdb` in src/blagbl/main.py; the method's own
code is not among this repository's source files.  Spec section 4.4: a linear
scan of all resolved entries whose descriptor ASN field equals the query, in
dataset iteration order, truncated to `limit` results when `limit > 0`; a
limit of 0 means unbounded. -/
def lookup_asn (records : List ASNRecord) (asn : String) (limit : Nat) :
    List ASNRecord :=
  let results := records.filter (fun r => r.asn == asn)
  if 0 < limit then results.take limit else results

/-! ## Archive reader (src/blagbl/main.py lines 265-276) -/

/-- A zip archive member: a name and raw content bytes (each a `Nat` < 256). -/
structure ZipMember where
  filename : String
  content : List Nat

/-- Strict UTF-8 decoding of a byte list into code points; `none` on any
truncated sequence, stray or missing continuation byte, overlong form,
surrogate, or value above U+10FFFF. -/
def utf8DecodeAux : List Nat → Option (List Nat)
  | [] => some []
  | b :: rest =>
    if b < 128 then
      (utf8DecodeAux rest).map (fun cs => b :: cs)
    else if b < 194 then none
    else if b < 224 then
      match rest with
      | b1 :: rest' =>
        if 128 ≤ b1 ∧ b1 < 192 then
          (utf8DecodeAux rest').map (fun cs => ((b - 192) * 64 + (b1 - 128)) :: cs)
        else none
      | [] => none
    else if b < 240 then
      match rest with
      | b1 :: b2 :: rest' =>
        if (128 ≤ b1 ∧ b1 < 192) ∧ (128 ≤ b2 ∧ b2 < 192) ∧
            (b ≠ 224 ∨ 160 ≤ b1) ∧ (b ≠ 237 ∨ b1 < 160) then
          (utf8DecodeAux rest').map
            (fun cs => ((b - 224) * 4096 + (b1 - 128) * 64 + (b2 - 128)) :: cs)
        else none
      | _ => none
    else if b < 245 then
      match rest with
      | b1 :: b2 :: b3 :: rest' =>
        if (128 ≤ b1 ∧ b1 < 192) ∧ (128 ≤ b2 ∧ b2 < 192) ∧ (128 ≤ b3 ∧ b3 < 192) ∧
            (b ≠ 240 ∨ 144 ≤ b1) ∧ (b ≠ 244 ∨ b1 < 144) then
          (utf8DecodeAux rest').map
            (fun cs => ((b - 240) * 262144 + (b1 - 128) * 4096 + (b2 - 128) * 64 + (b3 - 128)) :: cs)
        else none
      | _ => none
    else none

/-- Python `bytes.decode("utf-8")`, as an `Option`. -/
def utf8Decode (bytes : List Nat) : Option String :=
  (utf8DecodeAux bytes).map (fun cs => String.mk (cs.map Char.ofNat))

/-- `zfile.open(name)`: the first member carrying `name`. -/
def zipOpen (items : List ZipMember) (name : String) : Option (List Nat) :=
  (items.find? (fun m => m.filename == name)).map (fun m => m.content)

/-- `fetch_blag_files`: select the second and third members positionally
(`items[1]`, `items[2]`), read them by name, decode both as UTF-8. -/
def fetch_blag_files (items : List ZipMember) : Except BlagError (String × String) :=
  match items[1]?, items[2]? with
  | some item1, some item2 =>
    match zipOpen items item1.filename, zipOpen items item2.filename with
    | some blagBytes, some mapBytes =>
      match utf8Decode blagBytes, utf8Decode mapBytes with
      | some blagText, some mapText => .ok (blagText, mapText)
      | _, _ => .error .archiveFormatError
    | _, _ => .error .archiveFormatError
  | _, _ => .error .archiveFormatError

/-! ## Range summarizer (src/blagbl/main.py lines 157-173 and the
`ipaddress.summarize_address_range` loop it invokes) -/

/-- Count trailing zero bits of `n`, capped at `fuel`; the cap mirrors the
`bits` cap of `_count_righthand_zero_bits`. -/
def ctzAux : Nat → Nat → Nat
  | 0, _ => 0
  | f + 1, n => if n % 2 = 0 then ctzAux f (n / 2) + 1 else 0

/-- `_count_righthand_zero_bits(number, bits)`: `bits` for zero, otherwise the
number of trailing zero bits capped at `bits`. -/
def rtzBits (bits n : Nat) : Nat :=
  if n = 0 then bits else ctzAux bits n

/-- Python `n.bit_length()` via halving, with structural fuel. -/
def bitLenFuel : Nat → Nat → Nat
  | 0, _ => 0
  | f + 1, n => if n = 0 then 0 else bitLenFuel f (n / 2) + 1

/-- Python `n.bit_length()`. -/
def bitLen (n : Nat) : Nat := bitLenFuel n n

/-- The per-step block size exponent of `summarize_address_range`:
`min(_count_righthand_zero_bits(first, ip_bits), (last-first+1).bit_length()-1)`. -/
def nbitsOf (bits first last : Nat) : Nat :=
  min (rtzBits bits first) (bitLen (last - first + 1) - 1)

/-- The `while first_int <= last_int` loop of `summarize_address_range`,
with structural fuel; each emitted pair `(first, nbits)` is the network whose
network address is `first` and whose prefix length is `bits - nbits`. -/
def summarizeLoopFuel : Nat → Nat → Nat → Nat → List (Nat × Nat)
  | 0, _, _, _ => []
  | fuel + 1, bits, first, last =>
    if first ≤ last then
      (first, nbitsOf bits first last) ::
        summarizeLoopFuel fuel bits (first + 2 ^ nbitsOf bits first last) last
    else []

/-- The block decomposition of `summarize_address_range` for `[first, last]`.
The fuel `last + 1 - first` dominates the iteration count, since every step
advances `first` by at least one. -/
def summarizeLoop (bits first last : Nat) : List (Nat × Nat) :=
  summarizeLoopFuel (last + 1 - first) bits first last

/-- Runtime errors of the `ipaddress` calls in `output_pcap_filter`:
`addressValueError` for an address constructor fed an out-of-family integer,
`valueError` for `summarize_address_range` with `last < first`. -/
inductive AddrError where
  | addressValueError : AddrError
  | valueError : AddrError
  deriving DecidableEq

/-- Address family of the emitted networks. -/
inductive AddrFamily where
  | v4 : AddrFamily
  | v6 : AddrFamily
  deriving DecidableEq

/-- `ipaddress.IPv4Address(n)`: accepts exactly `n < 2^32`. -/
def IPv4Address_check (n : Nat) : Except AddrError Nat :=
  if n < 2 ^ 32 then .ok n else .error .addressValueError

/-- `ipaddress.IPv6Address(n)`: accepts exactly `n < 2^128`. -/
def IPv6Address_check (n : Nat) : Except AddrError Nat :=
  if n < 2 ^ 128 then .ok n else .error .addressValueError

/-- `ipaddress.summarize_address_range(first, last)` at the integer level:
`ValueError` when `last < first`, else the greedy block decomposition. -/
def summarize_address_range (bits first last : Nat) :
    Except AddrError (List (Nat × Nat)) :=
  if last < first then .error .valueError else .ok (summarizeLoop bits first last)

/-- The per-result body of `output_pcap_filter` (src/blagbl/main.py lines
160-168): family chosen by `left <= 2**33`, both bounds passed through the
family's address constructor, then summarised. -/
def pcapFilterRange (ip_range : Nat × Nat) :
    Except AddrError (AddrFamily × List (Nat × Nat)) :=
  if ip_range.1 ≤ 2 ^ 33 then
    match IPv4Address_check ip_range.1, IPv4Address_check ip_range.2 with
    | .ok l, .ok r => (summarize_address_range 32 l r).map (fun blocks => (.v4, blocks))
    | .error e, _ => .error e
    | _, .error e => .error e
  else
    match IPv6Address_check ip_range.1, IPv6Address_check ip_range.2 with
    | .ok l, .ok r => (summarize_address_range 128 l r).map (fun blocks => (.v6, blocks))
    | .error e, _ => .error e
    | _, .error e => .error e

/-- Dotted-quad rendering of an IPv4 address. -/
def ipv4String (n : Nat) : String :=
  toString (n / 2 ^ 24 % 256) ++ "." ++ toString (n / 2 ^ 16 % 256) ++ "." ++
    toString (n / 2 ^ 8 % 256) ++ "." ++ toString (n % 256)

/-- Lowercase hex digit. -/
def hexChar (n : Nat) : Char :=
  if n < 10 then Char.ofNat (48 + n) else Char.ofNat (87 + n)

/-- A 16-bit group in lowercase hex without leading zeros. -/
def hexGroup (n : Nat) : String :=
  let d3 := n / 4096 % 16
  let d2 := n / 256 % 16
  let d1 := n / 16 % 16
  let d0 := n % 16
  if 0 < d3 then String.mk [hexChar d3, hexChar d2, hexChar d1, hexChar d0]
  else if 0 < d2 then String.mk [hexChar d2, hexChar d1, hexChar d0]
  else if 0 < d1 then String.mk [hexChar d1, hexChar d0]
  else String.mk [hexChar d0]

/-- The eight 16-bit groups of an IPv6 address, high to low. -/
def v6Hextets (n : Nat) : List Nat :=
  [n / 2 ^ 112 % 65536, n / 2 ^ 96 % 65536, n / 2 ^ 80 % 65536, n / 2 ^ 64 % 65536,
   n / 2 ^ 48 % 65536, n / 2 ^ 32 % 65536, n / 2 ^ 16 % 65536, n % 65536]

/-- Leftmost longest run of zero groups, as (start, length); (0, 0) if none. -/
def bestZeroRun (groups : List Nat) : Nat × Nat :=
  let step := fun (st : Nat × Nat × Nat × Nat × Nat) (h : Nat) =>
    let (idx, curStart, curLen, bestStart, bestLen) := st
    if h = 0 then
      let s := if curLen = 0 then idx else curStart
      let l := curLen + 1
      if bestLen < l then (idx + 1, s, l, s, l) else (idx + 1, s, l, bestStart, bestLen)
    else (idx + 1, curStart, 0, bestStart, bestLen)
  let r := groups.foldl step (0, 0, 0, 0, 0)
  (r.2.2.2.1, r.2.2.2.2)

/-- RFC 5952 rendering of an IPv6 address: runs of two or more zero groups are
compressed to `::`, leftmost longest run first. -/
def ipv6String (n : Nat) : String :=
  let groups := v6Hextets n
  let run := bestZeroRun groups
  if run.2 < 2 then String.intercalate ":" (groups.map hexGroup)
  else
    String.intercalate ":" ((groups.take run.1).map hexGroup) ++ "::" ++
      String.intercalate ":" ((groups.drop (run.1 + run.2)).map hexGroup)

/-- `str(network)` for an emitted block of either family. -/
def netString : AddrFamily → Nat × Nat → String
  | .v4, p => ipv4String p.1 ++ "/" ++ toString (32 - p.2)
  | .v6, p => ipv6String p.1 ++ "/" ++ toString (128 - p.2)

/-- The spec's Range Summarizer contract `summarize`: each range decomposed in
its family, all prefix strings concatenated in range-input order. -/
def summarize (ranges : List (Nat × Nat)) : Except AddrError (List String) :=
  ranges.foldlM
    (fun acc r => (pcapFilterRange r).map (fun fr => acc ++ fr.2.map (netString fr.1))) []

/-- The `f"net {range}"` expressions accumulated by `output_pcap_filter`. -/
def pcapExpressions (results : List (Nat × Nat)) : Except AddrError (List String) :=
  results.foldlM
    (fun acc r =>
      (pcapFilterRange r).map (fun fr => acc ++ fr.2.map (fun p => "net " ++ netString fr.1 p)))
    []

/-- `output_pcap_filter`: the final filter expression written to stdout. -/
def output_pcap_filter (results : List (Nat × Nat)) : Except AddrError String :=
  (pcapExpressions results).map
    (fun exprs => "( " ++ String.intercalate " or " exprs ++ " )")

/-- The payload of the last mapping record carrying `code`, if any: the value
Python's dict holds for `code` after the mapping loop. -/
def lastPayload (rows : List (List String)) (code : String) : Option String :=
  rows.foldl (fun acc row => if row[1]? = some code then row[0]? else acc) none

/-! ## Basic lemmas about the embedded definitions -/

/-- A `csv.reader` row always has at least one field. -/
theorem csvRowAux_ne_nil (cs : List Char) : csvRowAux cs ≠ [] := by
  cases cs with
  | nil => simp [csvRowAux]
  | cons c rest =>
    simp only [csvRowAux]
    split <;> simp

/-- A `csv.reader` row always has at least one field. -/
theorem csvRow_ne_nil (s : String) : csvRow s ≠ [] := csvRowAux_ne_nil s.data

/-- Association-list lookup finds a value exactly when the key is bound. -/
theorem lookup_isSome_iff {β : Type} (l : List (String × β)) (q : String) :
    (l.lookup q).isSome ↔ ∃ v, (q, v) ∈ l := by
  induction l with
  | nil => simp [List.lookup]
  | cons p l ih =>
    obtain ⟨k, v⟩ := p
    by_cases h : q = k
    · subst h
      simp [List.lookup]
    · have hbeq : (q == k) = false := beq_false_of_ne h
      simp [List.lookup, hbeq, ih, h]

/-- Association-list lookup misses exactly when the key is unbound. -/
theorem lookup_eq_none_iff {β : Type} (l : List (String × β)) (q : String) :
    l.lookup q = none ↔ ¬ ∃ v, (q, v) ∈ l := by
  rw [← lookup_isSome_iff l q, ← Option.not_isSome_iff_eq_none]

/-- A comprehension `[blag_map[x] for x in row]` succeeds when every code is
bound in the table. -/
theorem resolveCodes_ok (m : List (String × String)) :
    ∀ codes : List String, (∀ code ∈ codes, (m.lookup code).isSome) →
      ∃ vs, resolveCodes m codes = .ok vs := by
  intro codes
  induction codes with
  | nil => exact fun _ => ⟨[], rfl⟩
  | cons c cs ih =>
    intro h
    obtain ⟨v, hv⟩ := Option.isSome_iff_exists.mp (h c (by simp))
    obtain ⟨vs, hvs⟩ := ih (fun code hcode => h code (by simp [hcode]))
    exact ⟨v :: vs, by simp [resolveCodes, hv, hvs, Except.map]⟩

/-- A comprehension `[blag_map[x] for x in row]` raises a KeyError carrying an
unbound code when the row mentions any unbound code. -/
theorem resolveCodes_err (m : List (String × String)) :
    ∀ codes : List String, (∃ code ∈ codes, m.lookup code = none) →
      ∃ c, resolveCodes m codes = .error (.unresolvedCodeError c) ∧ m.lookup c = none := by
  intro codes
  induction codes with
  | nil =>
    rintro ⟨c, hc, -⟩
    simp at hc
  | cons c cs ih =>
    rintro ⟨d, hd, hnone⟩
    rcases List.mem_cons.mp hd with rfl | hdcs
    · exact ⟨d, by simp [resolveCodes, hnone], hnone⟩
    · by_cases hc : m.lookup c = none
      · exact ⟨c, by simp [resolveCodes, hc], hc⟩
      · obtain ⟨v, hv⟩ := Option.ne_none_iff_exists'.mp hc
        obtain ⟨e, he, hen⟩ := ih ⟨d, hdcs, hnone⟩
        exact ⟨e, by simp [resolveCodes, hv, he, Except.map], hen⟩

/-- The entry loop succeeds when no row is empty and every code resolves. -/
theorem parseEntryRows_ok (m : List (String × String)) :
    ∀ (rows : List (List String)) (acc : List (String × List String)),
      (∀ row ∈ rows, row ≠ []) →
      (∀ row ∈ rows, ∀ code ∈ row.drop 1, (m.lookup code).isSome) →
      ∃ ips, parseEntryRows m acc rows = .ok ips := by
  intro rows
  induction rows with
  | nil => exact fun acc _ _ => ⟨acc, rfl⟩
  | cons row rest ih =>
    intro acc hne hres
    obtain ⟨ip, codes, rfl⟩ : ∃ ip codes, row = ip :: codes := by
      cases row with
      | nil => exact absurd rfl (hne [] (by simp))
      | cons a b => exact ⟨a, b, rfl⟩
    obtain ⟨vs, hvs⟩ := resolveCodes_ok m codes (by
      have h := hres (ip :: codes) (by simp)
      simpa using h)
    obtain ⟨ips, hips⟩ := ih ((ip, vs) :: acc) (fun r hr => hne r (by simp [hr]))
      (fun r hr => hres r (by simp [hr]))
    exact ⟨ips, by simp [parseEntryRows, hvs, hips]⟩

/-- The entry loop fails with an `unresolvedCodeError` (carrying some unbound
code) whenever any row mentions an unbound code and no row is empty. -/
theorem parseEntryRows_err (m : List (String × String)) :
    ∀ (rows : List (List String)) (acc : List (String × List String)),
      (∀ row ∈ rows, row ≠ []) →
      (∃ row ∈ rows, ∃ code ∈ row.drop 1, m.lookup code = none) →
      ∃ c, parseEntryRows m acc rows = .error (.unresolvedCodeError c) ∧
        m.lookup c = none := by
  intro rows
  induction rows with
  | nil =>
    rintro acc - ⟨r, hr, -⟩
    simp at hr
  | cons row rest ih =>
    rintro acc hne ⟨r, hr, d, hd, hnone⟩
    obtain ⟨ip, codes, rfl⟩ : ∃ ip codes, row = ip :: codes := by
      cases row with
      | nil => exact absurd rfl (hne [] (by simp))
      | cons a b => exact ⟨a, b, rfl⟩
    by_cases hrow : ∀ code ∈ codes, (m.lookup code).isSome
    · obtain ⟨vs, hvs⟩ := resolveCodes_ok m codes hrow
      have hrrest : r ∈ rest := by
        rcases List.mem_cons.mp hr with rfl | h
        · exfalso
          have hds : d ∈ codes := by simpa using hd
          have := hrow d hds
          rw [hnone] at this
          simp at this
        · exact h
      obtain ⟨c, hc, hcn⟩ := ih ((ip, vs) :: acc) (fun q hq => hne q (by simp [hq]))
        ⟨r, hrrest, d, hd, hnone⟩
      exact ⟨c, by simp [parseEntryRows, hvs, hc], hcn⟩
    · push_neg at hrow
      obtain ⟨c0, hc0, hc0n⟩ := hrow
      obtain ⟨c, hc, hcn⟩ := resolveCodes_err m codes
        ⟨c0, hc0, Option.not_isSome_iff_eq_none.mp hc0n⟩
      exact ⟨c, by simp [parseEntryRows, hc], hcn⟩

/-- The mapping loop fails with `malformedRowError` whenever some row has
fewer than two fields. -/
theorem parseMapRows_err :
    ∀ (rows : List (List String)) (acc : List (String × String)),
      (∃ row ∈ rows, row.length < 2) →
      parseMapRows acc rows = .error .malformedRowError := by
  intro rows
  induction rows with
  | nil =>
    rintro acc ⟨r, hr, -⟩
    simp at hr
  | cons row rest ih =>
    rintro acc ⟨r, hr, hlen⟩
    by_cases hshort : row.length < 2
    · have h1 : row[1]? = none := List.getElem?_eq_none (by omega)
      cases h0 : row[0]? <;> simp [parseMapRows, h1, h0]
    · obtain ⟨p, c, row', rfl⟩ : ∃ p c row', row = p :: c :: row' := by
        cases row with
        | nil => exact absurd (by simp) hshort
        | cons a t =>
          cases t with
          | nil => exact absurd (by simp) hshort
          | cons b t' => exact ⟨a, b, t', rfl⟩
      have hrrest : r ∈ rest := by
        rcases List.mem_cons.mp hr with rfl | h
        · exfalso
          simp at hlen
          omega
        · exact h
      simp only [parseMapRows, List.getElem?_cons_succ, List.getElem?_cons_zero]
      exact ih _ ⟨r, hrrest, hlen⟩

/-- The mapping loop succeeds on well-formed rows, and the table it builds
answers every lookup with the payload of the last row carrying the code. -/
theorem parseMapRows_ok_lookup :
    ∀ (rows : List (List String)) (acc : List (String × String)),
      (∀ row ∈ rows, 2 ≤ row.length) →
      ∃ m, parseMapRows acc rows = .ok m ∧
        ∀ code, m.lookup code =
          rows.foldl (fun a row => if row[1]? = some code then row[0]? else a)
            (acc.lookup code) := by
  intro rows
  induction rows with
  | nil => exact fun acc _ => ⟨acc, rfl, fun code => rfl⟩
  | cons row rest ih =>
    intro acc hwf
    obtain ⟨p, c, row', rfl⟩ : ∃ p c row', row = p :: c :: row' := by
      have h := hwf row (by simp)
      cases row with
      | nil => simp at h
      | cons a t =>
        cases t with
        | nil => simp at h
        | cons b t' => exact ⟨a, b, t', rfl⟩
    obtain ⟨m, hm, hlook⟩ := ih ((c, p) :: acc) (fun r hr => hwf r (by simp [hr]))
    refine ⟨m, by simp [parseMapRows, hm], fun code => ?_⟩
    rw [hlook code]
    simp only [List.foldl_cons, List.getElem?_cons_succ, List.getElem?_cons_zero]
    congr 1
    by_cases h : code = c
    · subst h
      simp [List.lookup]
    · have hbeq : (code == c) = false := beq_false_of_ne h
      have hne : ¬ (some c = some code) := by
        intro hcc
        exact h (Option.some.inj hcc).symm
      simp [List.lookup, hbeq, hne]

/-- The two near-duplicate parsers are one and the same function. -/
theorem BlagBL_parse_eq : BlagBL_parse_blag_contents = parse_blag_contents := by
  have hmap : BlagBL_parseMapRows = parseMapRows := by
    funext acc rows
    induction rows generalizing acc with
    | nil => rfl
    | cons row rest ih =>
      simp only [BlagBL_parseMapRows, parseMapRows]
      cases row[1]? <;> cases row[0]? <;> simp [ih]
  have hres : BlagBL_resolveCodes = resolveCodes := by
    funext m codes
    induction codes with
    | nil => rfl
    | cons c cs ih =>
      simp only [BlagBL_resolveCodes, resolveCodes]
      cases m.lookup c <;> simp [ih]
  have hentry : BlagBL_parseEntryRows = parseEntryRows := by
    funext m acc rows
    induction rows generalizing acc with
    | nil => rfl
    | cons row rest ih =>
      simp only [BlagBL_parseEntryRows, parseEntryRows, hres]
      cases row with
      | nil => rfl
      | cons ip codes => cases resolveCodes m codes <;> simp [ih]
  funext blag_list map_list
  simp [BlagBL_parse_blag_contents, parse_blag_contents, parseMapping, parseEntries,
    hmap, hres, hentry]

/-! ## Claim theorems -/

/-- C1 (code bug): `output_pcap_filter` selects the address family with
`left <= 2**33` instead of the IPv4/IPv6 boundary `2^32` the claim states.
At the range `(2^32, 2^32)` — an IPv6-space address — the code takes the IPv4
branch and `IPv4Address` raises `AddressValueError`, so no prefix is emitted,
whereas the claimed `2^32` threshold would decompose it into the single IPv6
prefix `(2^32, 0)` (that is, `::1:0:0/128`). -/
theorem output_pcap_filter_family_threshold_bug :
    pcapFilterRange (2 ^ 32, 2 ^ 32) = .error .addressValueError
  ∧ 2 ^ 32 ≤ 2 ^ 33
  ∧ ¬ (2 ^ 32 < 2 ^ 32)
  ∧ summarize_address_range 128 (2 ^ 32) (2 ^ 32) = .ok [(2 ^ 32, 0)] := by
  refine ⟨by decide, by norm_num, by omega, by decide⟩

/-- C3: `lookup_address` is an exact string match — it answers `some` exactly
when the query is letter-for-letter one of the stored addresses and `none`
otherwise, as an ordinary return value; concretely, for the dataset built from
entry `10.0.0.5,m1` and mapping `OwnerX-AS111,m1`, querying `10.0.0.5` returns
the resolved descriptors while `10.0.0.6` returns `none` with no
range-containment search. -/
theorem lookup_address_exact_string_match :
    (∀ (ips : List (String × List String)) (q : String),
        ((lookup_address ips q).isSome ↔ ∃ v, (q, v) ∈ ips)
      ∧ (lookup_address ips q = none ↔ ¬ ∃ v, (q, v) ∈ ips))
  ∧ (∃ ips, parse_blag_contents "10.0.0.5,m1" "OwnerX-AS111,m1" = .ok ips
      ∧ lookup_address ips "10.0.0.5" = some ["OwnerX-AS111"]
      ∧ lookup_address ips "10.0.0.6" = none) := by
  refine ⟨fun ips q => ⟨lookup_isSome_iff ips q, lookup_eq_none_iff ips q⟩, ?_⟩
  exact ⟨[("10.0.0.5", ["OwnerX-AS111"])], by decide, by decide, by decide⟩

/-- C4: with a positive limit `k`, `lookup_asn` returns at most `k` records,
and those records are a prefix of the unlimited result; limit 0 returns the
full filtered scan unbounded. -/
theorem lookup_asn_limit_take (records : List ASNRecord) (asn : String) (k : Nat)
    (hk : 0 < k) :
    (lookup_asn records asn k).length ≤ k
  ∧ (∃ t, lookup_asn records asn k ++ t = lookup_asn records asn 0)
  ∧ lookup_asn records asn 0 = records.filter (fun r => r.asn == asn) := by
  have h0 : lookup_asn records asn 0 = records.filter (fun r => r.asn == asn) := by
    simp [lookup_asn]
  have hk' : lookup_asn records asn k = (records.filter (fun r => r.asn == asn)).take k := by
    simp [lookup_asn, hk]
  refine ⟨?_, ⟨(records.filter (fun r => r.asn == asn)).drop k, ?_⟩, h0⟩
  · rw [hk', List.length_take]
    exact min_le_left _ _
  · rw [hk', h0]
    exact List.take_append_drop k _

/-- Witness for C4 at a concrete two-record dataset and limit 1. -/
theorem lookup_asn_limit_take_witness :
    (lookup_asn [⟨"AS1", "o1", "US", (0, 1)⟩, ⟨"AS1", "o2", "DE", (2, 3)⟩] "AS1" 1).length ≤ 1
  ∧ (∃ t, lookup_asn [⟨"AS1", "o1", "US", (0, 1)⟩, ⟨"AS1", "o2", "DE", (2, 3)⟩] "AS1" 1 ++ t =
      lookup_asn [⟨"AS1", "o1", "US", (0, 1)⟩, ⟨"AS1", "o2", "DE", (2, 3)⟩] "AS1" 0)
  ∧ lookup_asn [⟨"AS1", "o1", "US", (0, 1)⟩, ⟨"AS1", "o2", "DE", (2, 3)⟩] "AS1" 0 =
      List.filter (fun r => r.asn == "AS1")
        [⟨"AS1", "o1", "US", (0, 1)⟩, ⟨"AS1", "o2", "DE", (2, 3)⟩] :=
  lookup_asn_limit_take [⟨"AS1", "o1", "US", (0, 1)⟩, ⟨"AS1", "o2", "DE", (2, 3)⟩]
    "AS1" 1 (by decide)

/-- C5: the entry parse of an entries text against a mapping table fails as a
whole with `UnresolvedCodeError` whenever any record references an unbound
code (the error carries an unbound code), and succeeds whenever every
referenced code resolves. -/
theorem parse_entries_unresolved_code (blag_list : String)
    (m : List (String × String)) :
    ((∃ row ∈ (pySplit blag_list).map csvRow, ∃ code ∈ row.drop 1,
        m.lookup code = none) →
      ∃ c, parseEntries blag_list m = .error (.unresolvedCodeError c) ∧
        m.lookup c = none)
  ∧ ((∀ row ∈ (pySplit blag_list).map csvRow, ∀ code ∈ row.drop 1,
        (m.lookup code).isSome) →
      ∃ ips, parseEntries blag_list m = .ok ips) := by
  have hne : ∀ row ∈ (pySplit blag_list).map csvRow, row ≠ [] := by
    intro row hrow
    obtain ⟨s, -, rfl⟩ := List.mem_map.mp hrow
    exact csvRow_ne_nil s
  exact ⟨fun h => parseEntryRows_err m _ [] hne h,
    fun h => parseEntryRows_ok m _ [] hne h⟩

/-- Witness for C5: the entry `10.0.0.5,zz` against a table binding only `m1`
fails with an unresolved-code error. -/
theorem parse_entries_unresolved_code_witness :
    ∃ c, parseEntries "10.0.0.5,zz" [("m1", "OwnerX")] =
      .error (.unresolvedCodeError c) ∧ List.lookup c [("m1", "OwnerX")] = none :=
  (parse_entries_unresolved_code "10.0.0.5,zz" [("m1", "OwnerX")]).1 (by decide)

/-- C6: `parseMapping` fails with `MalformedRowError` whenever some record of
the mapping text has fewer than two comma-separated fields; in particular the
text `"ACME-ISP,3.3.4.4,US,1.2.3.4-1.2.3.10\nm1"`, whose second record has a
single field, is rejected. -/
theorem parse_map_malformed_row (map_list : String) :
    ((∃ row ∈ (pySplit map_list).map csvRow, row.length < 2) →
      parseMapping map_list = .error .malformedRowError)
  ∧ parseMapping "ACME-ISP,3.3.4.4,US,1.2.3.4-1.2.3.10\nm1" =
      .error .malformedRowError := by
  exact ⟨fun h => parseMapRows_err _ [] h, by decide⟩

/-- Witness for C6 at the one-field mapping text `"m1"`. -/
theorem parse_map_malformed_row_witness :
    parseMapping "m1" = .error .malformedRowError :=
  (parse_map_malformed_row "m1").1 (by decide)

/-- C7: the archive extraction addresses the blocklist member and the mapping
member positionally (`items[1]` and `items[2]`, the second and third members)
and fails with `ArchiveFormatError` when the archive has fewer than three
members or when a selected member's bytes are not valid UTF-8. -/
theorem extract_positional_members_errors (items : List ZipMember) :
    (items.length < 3 → fetch_blag_files items = .error .archiveFormatError)
  ∧ (∀ m1, items[1]? = some m1 → ∀ bs, zipOpen items m1.filename = some bs →
      utf8Decode bs = none → fetch_blag_files items = .error .archiveFormatError)
  ∧ (∀ m2, items[2]? = some m2 → ∀ bs, zipOpen items m2.filename = some bs →
      utf8Decode bs = none → fetch_blag_files items = .error .archiveFormatError) := by
  refine ⟨?_, ?_, ?_⟩
  · intro h3
    have h2 : items[2]? = none := List.getElem?_eq_none (by omega)
    cases h1 : items[1]? <;> simp [fetch_blag_files, h1, h2]
  · intro m1 h1 bs hzip hdec
    cases h2 : items[2]? with
    | none => simp [fetch_blag_files, h1, h2]
    | some m2 =>
      cases hz2 : zipOpen items m2.filename with
      | none => simp [fetch_blag_files, h1, h2, hzip, hz2]
      | some bs2 =>
        cases hd2 : utf8Decode bs2 <;>
          simp [fetch_blag_files, h1, h2, hzip, hz2, hdec, hd2]
  · intro m2 h2 bs hzip hdec
    cases h1 : items[1]? with
    | none => simp [fetch_blag_files, h1, h2]
    | some m1 =>
      cases hz1 : zipOpen items m1.filename with
      | none => simp [fetch_blag_files, h1, h2, hz1]
      | some bs1 =>
        cases hd1 : utf8Decode bs1 <;>
          simp [fetch_blag_files, h1, h2, hz1, hzip, hdec, hd1]

/-- Witness for C7: a one-member archive is rejected. -/
theorem extract_positional_members_errors_witness :
    fetch_blag_files [⟨"only.txt", [104]⟩] = .error .archiveFormatError :=
  (extract_positional_members_errors [⟨"only.txt", [104]⟩]).1 (by decide)

/-- C8: on a well-formed mapping text the table is built with field 1 of each
record as the key and field 0 as the value, and a lookup of any code returns
the payload of the last record carrying that code — duplicates raise no error
and the last occurrence wins. -/
theorem parse_map_last_occurrence_wins (map_list : String)
    (hwf : ∀ row ∈ (pySplit map_list).map csvRow, 2 ≤ row.length) :
    ∃ m, parseMapping map_list = .ok m ∧
      ∀ code, m.lookup code = lastPayload ((pySplit map_list).map csvRow) code := by
  obtain ⟨m, hm, hl⟩ := parseMapRows_ok_lookup ((pySplit map_list).map csvRow) [] hwf
  exact ⟨m, hm, fun code => by rw [hl code]; rfl⟩

/-- Witness for C8 on a mapping text with a duplicated code, where the last
payload wins. -/
theorem parse_map_last_occurrence_wins_witness :
    ∃ m, parseMapping "A,m1\nB,m1" = .ok m ∧
      ∀ code, m.lookup code = lastPayload ((pySplit "A,m1\nB,m1").map csvRow) code :=
  parse_map_last_occurrence_wins "A,m1\nB,m1" (by decide)

/-- C9 counterexample: an entry record consisting of only an address (no
mapping codes) does not make the entry parse fail — the full parse of the
one-field entries text `"10.0.0.5"` succeeds, mapping the address to an empty
descriptor list, instead of raising `MalformedRowError` as claimed. -/
theorem entry_single_field_record_accepted :
    parse_blag_contents "10.0.0.5" "OwnerX,m1" = .ok [("10.0.0.5", [])] := by
  decide

/-- C9 amended: an entry record consisting of only an address is accepted by
the entry loop and yields that address bound to the empty descriptor list;
entry records are never rejected for having too few fields. -/
theorem entry_single_field_yields_empty_codes (blag_map : List (String × String))
    (ips : List (String × List String)) (ip : String) (rest : List (List String)) :
    parseEntryRows blag_map ips ([ip] :: rest) =
      parseEntryRows blag_map ((ip, []) :: ips) rest := rfl

/-- C10: the module-level `parse_blag_contents` of main.py and the
defaultdict-based `BlagBL.parse_blag_contents` of __init__.py produce
extensionally equal address-to-descriptor-list mappings whenever both succeed,
and both give last-write-wins semantics for a repeated address, since the
method variant also assigns a fresh list per record rather than appending. -/
theorem parse_implementations_agree :
    (∀ blag_list map_list ipsA ipsB,
      parse_blag_contents blag_list map_list = .ok ipsA →
      BlagBL_parse_blag_contents blag_list map_list = .ok ipsB →
      ∀ addr, ipsA.lookup addr = ipsB.lookup addr)
  ∧ (∃ ips, parse_blag_contents "10.0.0.5,m1\n10.0.0.5,m2" "A,m1\nB,m2" = .ok ips ∧
      ips.lookup "10.0.0.5" = some ["B"])
  ∧ (∃ ips, BlagBL_parse_blag_contents "10.0.0.5,m1\n10.0.0.5,m2" "A,m1\nB,m2" = .ok ips ∧
      ips.lookup "10.0.0.5" = some ["B"]) := by
  refine ⟨?_, ?_, ?_⟩
  · intro blag_list map_list ipsA ipsB hA hB addr
    rw [BlagBL_parse_eq, hA] at hB
    cases hB
    rfl
  · exact ⟨[("10.0.0.5", ["B"]), ("10.0.0.5", ["A"])], by decide, by decide⟩
  · exact ⟨[("10.0.0.5", ["B"]), ("10.0.0.5", ["A"])], by decide, by decide⟩

/-- Witness for C10, applying the agreement to the concrete duplicate-address
dataset. -/
theorem parse_implementations_agree_witness :
    List.lookup "10.0.0.5" [("10.0.0.5", ["B"]), ("10.0.0.5", ["A"])] =
      List.lookup "10.0.0.5" [("10.0.0.5", ["B"]), ("10.0.0.5", ["A"])] :=
  parse_implementations_agree.1 "10.0.0.5,m1\n10.0.0.5,m2" "A,m1\nB,m2"
    [("10.0.0.5", ["B"]), ("10.0.0.5", ["A"])]
    [("10.0.0.5", ["B"]), ("10.0.0.5", ["A"])] (by decide) (by decide) "10.0.0.5"

/-! ## Range-summarizer lemmas: the greedy loop is an exact and minimal cover -/

/-- The trailing-zero count is bounded by its fuel (the `bits` cap). -/
theorem ctzAux_le : ∀ f n, ctzAux f n ≤ f := by
  intro f
  induction f with
  | zero => intro n; simp [ctzAux]
  | succ f ih =>
    intro n
    simp only [ctzAux]
    split
    · have := ih (n / 2)
      omega
    · omega

/-- `2 ^ ctzAux f n` divides `n`. -/
theorem ctzAux_pow_dvd : ∀ f n, 2 ^ ctzAux f n ∣ n := by
  intro f
  induction f with
  | zero => intro n; simp [ctzAux]
  | succ f ih =>
    intro n
    simp only [ctzAux]
    by_cases h : n % 2 = 0
    · rw [if_pos h]
      obtain ⟨m, hm⟩ := ih (n / 2)
      set c := ctzAux f (n / 2) with hc
      refine ⟨m, ?_⟩
      calc n = 2 * (n / 2) := by omega
        _ = 2 * (2 ^ c * m) := by rw [hm]
        _ = 2 ^ (c + 1) * m := by ring
    · rw [if_neg h]
      simp

/-- Maximality of `ctzAux`: any power of two dividing a nonzero `n` is counted,
up to the fuel. -/
theorem le_ctzAux : ∀ f n K, K ≤ f → 2 ^ K ∣ n → n ≠ 0 → K ≤ ctzAux f n := by
  intro f
  induction f with
  | zero => intro n K hK _ _; omega
  | succ f ih =>
    intro n K hK hdvd hn
    cases K with
    | zero => omega
    | succ K =>
      have h2 : 2 ∣ n := dvd_trans (dvd_pow_self 2 (Nat.succ_ne_zero K)) hdvd
      have hmod : n % 2 = 0 := by
        obtain ⟨m, hm⟩ := h2
        omega
      simp only [ctzAux, if_pos hmod]
      obtain ⟨m, hm⟩ := hdvd
      have hm2 : n = 2 * (2 ^ K * m) := by
        rw [hm, pow_succ]
        ring
      have hdvd' : 2 ^ K ∣ n / 2 := ⟨m, by omega⟩
      have hn2 : n / 2 ≠ 0 := by omega
      have := ih (n / 2) K (by omega) hdvd' hn2
      omega

/-- `rtzBits` never exceeds the bit width. -/
theorem rtzBits_le (bits n : Nat) : rtzBits bits n ≤ bits := by
  unfold rtzBits
  split
  · exact le_rfl
  · exact ctzAux_le bits n

/-- `2 ^ rtzBits bits n` divides `n`. -/
theorem rtzBits_pow_dvd (bits n : Nat) : 2 ^ rtzBits bits n ∣ n := by
  unfold rtzBits
  split
  · simp [*]
  · exact ctzAux_pow_dvd bits n

/-- Maximality of `rtzBits` within the bit width. -/
theorem le_rtzBits (bits n K : Nat) (hKb : K ≤ bits) (hd : 2 ^ K ∣ n) :
    K ≤ rtzBits bits n := by
  unfold rtzBits
  by_cases h0 : n = 0
  · rw [if_pos h0]
    exact hKb
  · rw [if_neg h0]
    exact le_ctzAux bits n K hKb hd h0

/-- `rtzBits` is the exact trailing-zero count when it is witnessed both ways. -/
theorem rtzBits_eq_of (bits n K : Nat) (hKb : K ≤ bits) (hd : 2 ^ K ∣ n)
    (hnd : ¬ 2 ^ (K + 1) ∣ n) : rtzBits bits n = K := by
  have hle : K ≤ rtzBits bits n := le_rtzBits bits n K hKb hd
  have hge : rtzBits bits n ≤ K := by
    by_contra hgt
    push_neg at hgt
    exact hnd (dvd_trans (pow_dvd_pow 2 (by omega)) (rtzBits_pow_dvd bits n))
  omega

/-- `bitLenFuel` of zero is zero. -/
theorem bitLenFuel_zero : ∀ f, bitLenFuel f 0 = 0 := by
  intro f
  cases f <;> simp [bitLenFuel]

/-- `bitLenFuel` of a nonzero number is positive. -/
theorem bitLenFuel_pos : ∀ f n, n ≠ 0 → n ≤ f → 1 ≤ bitLenFuel f n := by
  intro f n hn hf
  cases f with
  | zero => omega
  | succ f => simp [bitLenFuel, hn]

/-- With sufficient fuel, `bitLenFuel` brackets its argument between
consecutive powers of two. -/
theorem bitLenFuel_bounds : ∀ f n, n ≤ f →
    n < 2 ^ bitLenFuel f n ∧ (n ≠ 0 → 2 ^ (bitLenFuel f n - 1) ≤ n) := by
  intro f
  induction f with
  | zero =>
    intro n h
    have h0 : n = 0 := by omega
    subst h0
    simp [bitLenFuel]
  | succ f ih =>
    intro n h
    by_cases h0 : n = 0
    · subst h0
      simp [bitLenFuel]
    · simp only [bitLenFuel, if_neg h0]
      have hlt : n / 2 < n := Nat.div_lt_self (by omega) (by omega)
      have ihh := ih (n / 2) (by omega)
      have hps : 2 ^ (bitLenFuel f (n / 2) + 1) = 2 * 2 ^ bitLenFuel f (n / 2) := by
        ring
      constructor
      · have := ihh.1
        omega
      · intro _
        simp only [Nat.add_sub_cancel]
        by_cases h02 : n / 2 = 0
        · have hn1 : n = 1 := by omega
          subst hn1
          rw [show (1 : Nat) / 2 = 0 from rfl, bitLenFuel_zero]
          simp
        · have hlow := ihh.2 h02
          have hpos : 1 ≤ bitLenFuel f (n / 2) := bitLenFuel_pos f (n / 2) h02 (by omega)
          have hps2 : 2 ^ bitLenFuel f (n / 2) = 2 ^ (bitLenFuel f (n / 2) - 1) * 2 := by
            rw [← pow_succ]
            congr 1
            omega
          omega

/-- `bitLen` brackets its argument between consecutive powers of two. -/
theorem bitLen_bounds (n : Nat) :
    n < 2 ^ bitLen n ∧ (n ≠ 0 → 2 ^ (bitLen n - 1) ≤ n) :=
  bitLenFuel_bounds n n le_rfl

/-- Any power of two at most `n` has its exponent below `bitLen n`. -/
theorem lt_bitLen (n K : Nat) (h : 2 ^ K ≤ n) : K < bitLen n := by
  by_contra hle
  push_neg at hle
  have h1 := (bitLen_bounds n).1
  have h2 : 2 ^ bitLen n ≤ 2 ^ K := Nat.pow_le_pow_right (by omega) hle
  omega

/-- The greedy block never overruns the span. -/
theorem nbits_le_span (bits first last : Nat) (h : first ≤ last) :
    2 ^ nbitsOf bits first last ≤ last + 1 - first := by
  have hs : last - first + 1 ≠ 0 := by omega
  have hlow := (bitLen_bounds (last - first + 1)).2 hs
  have h1 : nbitsOf bits first last ≤ bitLen (last - first + 1) - 1 := min_le_right _ _
  have h2 : 2 ^ nbitsOf bits first last ≤ 2 ^ (bitLen (last - first + 1) - 1) :=
    Nat.pow_le_pow_right (by omega) h1
  omega

/-- The greedy block is aligned at the current lower bound. -/
theorem nbits_dvd (bits first last : Nat) : 2 ^ nbitsOf bits first last ∣ first :=
  dvd_trans (pow_dvd_pow 2 (min_le_left _ _)) (rtzBits_pow_dvd bits first)

/-- The greedy block exponent stays within the bit width. -/
theorem nbits_le_bits (bits first last : Nat) : nbitsOf bits first last ≤ bits :=
  le_trans (min_le_left _ _) (rtzBits_le bits first)

/-- Any fuel at least the span computes the same block list. -/
theorem summarizeLoopFuel_congr (bits last : Nat) :
    ∀ f g first, last + 1 - first ≤ f → last + 1 - first ≤ g →
      summarizeLoopFuel f bits first last = summarizeLoopFuel g bits first last := by
  intro f
  induction f with
  | zero =>
    intro g first hf hg
    cases g with
    | zero => rfl
    | succ g =>
      have hfl : ¬ first ≤ last := by omega
      simp [summarizeLoopFuel, hfl]
  | succ f ihf =>
    intro g first hf hg
    cases g with
    | zero =>
      have hfl : ¬ first ≤ last := by omega
      simp [summarizeLoopFuel, hfl]
    | succ g =>
      simp only [summarizeLoopFuel]
      by_cases hfl : first ≤ last
      · rw [if_pos hfl, if_pos hfl]
        have hpow : 0 < 2 ^ nbitsOf bits first last := pow_pos (by omega) _
        rw [ihf g _ (by omega) (by omega)]
      · rw [if_neg hfl, if_neg hfl]

/-- One-step unfolding of the greedy loop. -/
theorem summarizeLoop_eq (bits first last : Nat) :
    summarizeLoop bits first last =
      if first ≤ last then
        (first, nbitsOf bits first last) ::
          summarizeLoop bits (first + 2 ^ nbitsOf bits first last) last
      else [] := by
  by_cases hfl : first ≤ last
  · rw [if_pos hfl]
    unfold summarizeLoop
    have h1 : last + 1 - first = (last - first) + 1 := by omega
    rw [h1]
    simp only [summarizeLoopFuel, if_pos hfl]
    congr 1
    apply summarizeLoopFuel_congr
    · have hpow : 0 < 2 ^ nbitsOf bits first last := pow_pos (by omega) _
      omega
    · exact le_rfl
  · rw [if_neg hfl]
    unfold summarizeLoop
    have h0 : last + 1 - first = 0 := by omega
    rw [h0]
    rfl

/-- Exact cover: an address is covered by the emitted blocks exactly when it
lies in the inclusive input range — no gaps, nothing outside. -/
theorem summarizeLoop_cover (bits : Nat) :
    ∀ span first last, last + 1 - first ≤ span →
      ∀ a, (∃ p ∈ summarizeLoop bits first last, p.1 ≤ a ∧ a ≤ p.1 + 2 ^ p.2 - 1) ↔
        (first ≤ a ∧ a ≤ last) := by
  intro span
  induction span with
  | zero =>
    intro first last h a
    rw [summarizeLoop_eq, if_neg (by omega)]
    simp only [List.not_mem_nil, false_and, exists_false, exists_and_left, false_iff]
    omega
  | succ span ih =>
    intro first last hspan a
    by_cases hfl : first ≤ last
    · rw [summarizeLoop_eq, if_pos hfl]
      have hpow : 0 < 2 ^ nbitsOf bits first last := pow_pos (by omega) _
      have hle := nbits_le_span bits first last hfl
      have hih := ih (first + 2 ^ nbitsOf bits first last) last (by omega) a
      simp only [List.mem_cons]
      constructor
      · rintro ⟨p, rfl | hp, hpc⟩
        · simp only at hpc
          omega
        · have := hih.mp ⟨p, hp, hpc⟩
          omega
      · rintro ⟨h1, h2⟩
        by_cases hcase : a ≤ first + 2 ^ nbitsOf bits first last - 1
        · exact ⟨(first, nbitsOf bits first last), Or.inl rfl, by simp only []; omega⟩
        · obtain ⟨p, hp, hpc⟩ := hih.mpr ⟨by omega, h2⟩
          exact ⟨p, Or.inr hp, hpc⟩
    · rw [summarizeLoop_eq, if_neg hfl]
      simp only [List.not_mem_nil, false_and, exists_false, exists_and_left, false_iff]
      omega

/-- Among the blocks of a list covering `a`, one of maximal size exists. -/
theorem exists_max_block (L : List (Nat × Nat)) (a : Nat)
    (h : ∃ p ∈ L, p.1 ≤ a ∧ a ≤ p.1 + 2 ^ p.2 - 1) :
    ∃ B ∈ L, (B.1 ≤ a ∧ a ≤ B.1 + 2 ^ B.2 - 1) ∧
      ∀ P ∈ L, (P.1 ≤ a ∧ a ≤ P.1 + 2 ^ P.2 - 1) → P.2 ≤ B.2 := by
  induction L with
  | nil =>
    obtain ⟨p, hp, -⟩ := h
    simp at hp
  | cons q L ih =>
    by_cases hL : ∃ p ∈ L, p.1 ≤ a ∧ a ≤ p.1 + 2 ^ p.2 - 1
    · obtain ⟨B, hBL, hBc, hBm⟩ := ih hL
      by_cases hq : (q.1 ≤ a ∧ a ≤ q.1 + 2 ^ q.2 - 1) ∧ B.2 ≤ q.2
      · refine ⟨q, by simp, hq.1, ?_⟩
        rintro P hP hPc
        rcases List.mem_cons.mp hP with rfl | hPL
        · exact le_rfl
        · exact le_trans (hBm P hPL hPc) hq.2
      · refine ⟨B, by simp [hBL], hBc, ?_⟩
        rintro P hP hPc
        rcases List.mem_cons.mp hP with rfl | hPL
        · by_cases hqc : P.1 ≤ a ∧ a ≤ P.1 + 2 ^ P.2 - 1
          · have hnot : ¬ B.2 ≤ P.2 := fun hle => hq ⟨hqc, hle⟩
            omega
          · exact absurd hPc hqc
        · exact hBm P hPL hPc
    · obtain ⟨p, hp, hpc⟩ := h
      have hpq : p = q := by
        rcases List.mem_cons.mp hp with rfl | hPL
        · rfl
        · exact absurd ⟨p, hPL, hpc⟩ hL
      subst hpq
      refine ⟨p, by simp, hpc, ?_⟩
      rintro P hP hPc
      rcases List.mem_cons.mp hP with rfl | hPL
      · exact le_rfl
      · exact absurd ⟨P, hPL, hPc⟩ hL

/-- The greedy block exponent after stepping by a smaller aligned block. -/
theorem nbits_after_step (bits a last K : Nat) (hKb : K + 1 ≤ bits)
    (hdvd2 : 2 ^ (K + 1) ∣ a) (hspan2 : 2 ^ (K + 1) ≤ last + 1 - a) :
    nbitsOf bits (a + 2 ^ K) last = K := by
  have hps : 2 ^ (K + 1) = 2 ^ K * 2 := pow_succ 2 K
  have hx : 0 < 2 ^ K := pow_pos (by omega) K
  have hrtz : rtzBits bits (a + 2 ^ K) = K := by
    apply rtzBits_eq_of bits _ K (by omega)
    · exact Nat.dvd_add (dvd_trans (pow_dvd_pow 2 (by omega)) hdvd2) dvd_rfl
    · intro hcon
      have hd : 2 ^ (K + 1) ∣ 2 ^ K := by
        have hsub := Nat.dvd_sub' hcon hdvd2
        simpa using hsub
      have := Nat.le_of_dvd hx hd
      omega
  unfold nbitsOf
  rw [hrtz]
  have h2K : 2 ^ K ≤ last - (a + 2 ^ K) + 1 := by omega
  have hbl := lt_bitLen _ _ h2K
  exact Nat.min_eq_left (by omega)

/-- Stepping the greedy decomposition from any aligned sub-block of the first
greedy block costs at most one extra block. -/
theorem greedy_step_le (bits : Nat) :
    ∀ d a last K, a ≤ last → K + d = nbitsOf bits a last →
      (summarizeLoop bits a last).length ≤
        1 + (summarizeLoop bits (a + 2 ^ K) last).length := by
  intro d
  induction d with
  | zero =>
    intro a last K hal hK
    rw [summarizeLoop_eq, if_pos hal]
    have hKnb : K = nbitsOf bits a last := by omega
    rw [← hKnb]
    simp only [List.length_cons]
    omega
  | succ d ih =>
    intro a last K hal hK
    have hKnb : K + 1 ≤ nbitsOf bits a last := by omega
    have hKb : K + 1 ≤ bits := le_trans hKnb (nbits_le_bits bits a last)
    have hdvd2 : 2 ^ (K + 1) ∣ a :=
      dvd_trans (pow_dvd_pow 2 hKnb) (nbits_dvd bits a last)
    have hspan2 : 2 ^ (K + 1) ≤ last + 1 - a :=
      le_trans (Nat.pow_le_pow_right (by omega) hKnb) (nbits_le_span bits a last hal)
    have hps : 2 ^ (K + 1) = 2 ^ K * 2 := pow_succ 2 K
    have hx : 0 < 2 ^ K := pow_pos (by omega) K
    have ha2 : a + 2 ^ K ≤ last := by omega
    have hnb' := nbits_after_step bits a last K hKb hdvd2 hspan2
    have hstep : summarizeLoop bits (a + 2 ^ K) last =
        (a + 2 ^ K, K) :: summarizeLoop bits (a + 2 ^ (K + 1)) last := by
      rw [summarizeLoop_eq, if_pos ha2, hnb']
      have harith : a + 2 ^ K + 2 ^ K = a + 2 ^ (K + 1) := by omega
      rw [harith]
    have ihh := ih a last (K + 1) hal (by omega)
    rw [hstep]
    simp only [List.length_cons]
    omega

/-- Minimality: any list of power-of-two-aligned blocks within the bit width
whose blocks stay inside `[a, last]`, start at or after `a` once they reach
`[a, last]`, and jointly cover `[a, last]`, has at least as many blocks as the
greedy decomposition. -/
theorem minCoverAux (bits : Nat) :
    ∀ span a last (L : List (Nat × Nat)),
      last + 1 - a ≤ span →
      (∀ p ∈ L, p.1 % 2 ^ p.2 = 0) →
      (∀ p ∈ L, p.2 ≤ bits) →
      (∀ p ∈ L, p.1 + 2 ^ p.2 - 1 ≤ last) →
      (∀ p ∈ L, a ≤ p.1 + 2 ^ p.2 - 1 → a ≤ p.1) →
      (∀ x, a ≤ x → x ≤ last → ∃ p ∈ L, p.1 ≤ x ∧ x ≤ p.1 + 2 ^ p.2 - 1) →
      (summarizeLoop bits a last).length ≤ L.length := by
  intro span
  induction span with
  | zero =>
    intro a last L h1 _ _ _ _ _
    rw [summarizeLoop_eq, if_neg (by omega)]
    simp
  | succ span ih =>
    intro a last L hspan hAlign hBits hTop hStart hCover
    by_cases hal : a ≤ last
    · obtain ⟨B, hBL, hBc, hBmax⟩ := exists_max_block L a (hCover a le_rfl hal)
      have hpowB : 0 < 2 ^ B.2 := pow_pos (by omega) _
      have hB1 : B.1 = a := le_antisymm hBc.1 (hStart B hBL hBc.2)
      have hKbits : B.2 ≤ bits := hBits B hBL
      have hdvd : 2 ^ B.2 ∣ a := by
        have halign := hAlign B hBL
        rw [hB1] at halign
        exact Nat.dvd_of_mod_eq_zero halign
      have htopB : a + 2 ^ B.2 - 1 ≤ last := by
        have htb := hTop B hBL
        rw [hB1] at htb
        exact htb
      have hKnb : B.2 ≤ nbitsOf bits a last := by
        apply le_min
        · exact le_rtzBits bits a B.2 hKbits hdvd
        · have h2 : 2 ^ B.2 ≤ last - a + 1 := by omega
          have := lt_bitLen _ _ h2
          omega
      have hGL := greedy_step_le bits (nbitsOf bits a last - B.2) a last B.2 hal (by omega)
      have hlenL : 1 ≤ L.length := List.length_pos.mpr (List.ne_nil_of_mem hBL)
      have hlen : (L.erase B).length = L.length - 1 := List.length_erase_of_mem hBL
      have hsub : ∀ p ∈ L.erase B, p ∈ L := fun p hp => List.mem_of_mem_erase hp
      have hStart' : ∀ p ∈ L.erase B, a + 2 ^ B.2 ≤ p.1 + 2 ^ p.2 - 1 →
          a + 2 ^ B.2 ≤ p.1 := by
        intro P hP htopP
        have hPL := hsub P hP
        have hpowP : 0 < 2 ^ P.2 := pow_pos (by omega) _
        have haP : a ≤ P.1 := hStart P hPL (by omega)
        by_contra hlt
        push_neg at hlt
        have hPalign : 2 ^ P.2 ∣ P.1 := Nat.dvd_of_mod_eq_zero (hAlign P hPL)
        by_cases hjK : P.2 ≤ B.2
        · have hd2 : 2 ^ P.2 ∣ a + 2 ^ B.2 :=
            Nat.dvd_add (dvd_trans (pow_dvd_pow 2 hjK) hdvd) (pow_dvd_pow 2 hjK)
          have hd3 : 2 ^ P.2 ∣ a + 2 ^ B.2 - P.1 := Nat.dvd_sub' hd2 hPalign
          have hpos : 0 < a + 2 ^ B.2 - P.1 := by omega
          have hle := Nat.le_of_dvd hpos hd3
          omega
        · push_neg at hjK
          have hd1 : 2 ^ B.2 ∣ P.1 := dvd_trans (pow_dvd_pow 2 (by omega)) hPalign
          have hd2 : 2 ^ B.2 ∣ P.1 - a := Nat.dvd_sub' hd1 hdvd
          have hP1a : P.1 = a := by
            rcases Nat.eq_zero_or_pos (P.1 - a) with h0 | hp0
            · omega
            · have := Nat.le_of_dvd hp0 hd2
              omega
          have hPcov : P.1 ≤ a ∧ a ≤ P.1 + 2 ^ P.2 - 1 := ⟨by omega, by omega⟩
          have := hBmax P hPL hPcov
          omega
      have hCover' : ∀ x, a + 2 ^ B.2 ≤ x → x ≤ last →
          ∃ p ∈ L.erase B, p.1 ≤ x ∧ x ≤ p.1 + 2 ^ p.2 - 1 := by
        intro x hx1 hx2
        obtain ⟨P, hPL, hPc⟩ := hCover x (by omega) hx2
        have hPB : P ≠ B := by
          intro hPB
          subst hPB
          rw [hB1] at hPc
          omega
        exact ⟨P, (List.mem_erase_of_ne hPB).mpr hPL, hPc⟩
      have hIH := ih (a + 2 ^ B.2) last (L.erase B) (by omega)
        (fun p hp => hAlign p (hsub p hp)) (fun p hp => hBits p (hsub p hp))
        (fun p hp => hTop p (hsub p hp)) hStart' hCover'
      omega
    · rw [summarizeLoop_eq, if_neg hal]
      simp

/-- C2: for every range `[low, high]` with `low ≤ high` and every bit width,
the greedy decomposition used by the summarizer covers exactly the inclusive
range (no gaps, no addresses outside) and is minimal: no list of
power-of-two-aligned prefixes of the family whose coverage equals the range is
shorter; and concretely `summarize [(167772160, 167772161)]` returns
`["10.0.0.0/31"]`. -/
theorem summarize_minimal_exact_cover (bits low high : Nat) (hlh : low ≤ high) :
    (∀ a, (∃ p ∈ summarizeLoop bits low high, p.1 ≤ a ∧ a ≤ p.1 + 2 ^ p.2 - 1) ↔
        (low ≤ a ∧ a ≤ high))
  ∧ (∀ L : List (Nat × Nat),
      (∀ p ∈ L, p.1 % 2 ^ p.2 = 0) →
      (∀ p ∈ L, p.2 ≤ bits) →
      (∀ a, (∃ p ∈ L, p.1 ≤ a ∧ a ≤ p.1 + 2 ^ p.2 - 1) ↔ (low ≤ a ∧ a ≤ high)) →
      (summarizeLoop bits low high).length ≤ L.length)
  ∧ summarize [(167772160, 167772161)] = .ok ["10.0.0.0/31"] := by
  refine ⟨summarizeLoop_cover bits (high + 1 - low) low high le_rfl, ?_, by decide⟩
  intro L hAlign hBits hexact
  apply minCoverAux bits (high + 1 - low) low high L le_rfl hAlign hBits
  · intro p hp
    have hpow : 0 < 2 ^ p.2 := pow_pos (by omega) _
    have := (hexact (p.1 + 2 ^ p.2 - 1)).mp ⟨p, hp, by omega, le_rfl⟩
    exact this.2
  · intro p hp _
    have hpow : 0 < 2 ^ p.2 := pow_pos (by omega) _
    exact ((hexact p.1).mp ⟨p, hp, le_rfl, by omega⟩).1
  · intro x hx1 hx2
    exact (hexact x).mpr ⟨hx1, hx2⟩

/-- Witness for C2 at the concrete range `[167772160, 167772161]` of the
claim's example, in the IPv4 family. -/
theorem summarize_minimal_exact_cover_witness :
    (∀ a, (∃ p ∈ summarizeLoop 32 167772160 167772161, p.1 ≤ a ∧ a ≤ p.1 + 2 ^ p.2 - 1) ↔
        (167772160 ≤ a ∧ a ≤ 167772161))
  ∧ (∀ L : List (Nat × Nat),
      (∀ p ∈ L, p.1 % 2 ^ p.2 = 0) →
      (∀ p ∈ L, p.2 ≤ 32) →
      (∀ a, (∃ p ∈ L, p.1 ≤ a ∧ a ≤ p.1 + 2 ^ p.2 - 1) ↔
        (167772160 ≤ a ∧ a ≤ 167772161)) →
      (summarizeLoop 32 167772160 167772161).length ≤ L.length)
  ∧ summarize [(167772160, 167772161)] = .ok ["10.0.0.0/31"] :=
  summarize_minimal_exact_cover 32 167772160 167772161 (by decide)

end Blagbl
